import Mathlib

/-
Formal model of the whip treasury analytics core:
  * backend/app/libs/price_stats.py  (returns builder, returns-matrix aligner,
    risk decomposition engine) — translated from the source file;
  * the balance-spread backtester contract (backend/app/spread/actions.py is
    not part of the available sources; it is modelled from the specification,
    see the `Spread` namespace).

Numeric values flowing through the pandas/numpy pipeline are modelled by the
type `F`: an exact finite real, one of the two IEEE infinities, or NaN.
Finite arithmetic is exact (overflow and signed zero are not modelled);
the special-value propagation rules follow IEEE-754 / numpy.
-/

namespace Whip

/-- Model of an IEEE-754 double at the granularity the analytics code
observes: an exact finite real number, positive or negative infinity, or
NaN.  Overflow and the sign of zero are not modelled. -/
inductive F where
  | fin : ℝ → F
  | pinf : F
  | ninf : F
  | nan : F

namespace F

/-- IEEE addition on modelled doubles. -/
def add : F → F → F
  | nan, _ => nan
  | _, nan => nan
  | fin a, fin b => fin (a + b)
  | fin _, pinf => pinf
  | fin _, ninf => ninf
  | pinf, fin _ => pinf
  | ninf, fin _ => ninf
  | pinf, pinf => pinf
  | ninf, ninf => ninf
  | pinf, ninf => nan
  | ninf, pinf => nan

/-- IEEE negation on modelled doubles. -/
def neg : F → F
  | fin a => fin (-a)
  | pinf => ninf
  | ninf => pinf
  | nan => nan

/-- IEEE subtraction on modelled doubles. -/
def sub (x y : F) : F := add x (neg y)

/-- IEEE multiplication on modelled doubles; `inf * 0 = nan`. -/
noncomputable def mul : F → F → F
  | nan, _ => nan
  | _, nan => nan
  | fin a, fin b => fin (a * b)
  | fin a, pinf => if a = 0 then nan else if 0 < a then pinf else ninf
  | fin a, ninf => if a = 0 then nan else if 0 < a then ninf else pinf
  | pinf, fin b => if b = 0 then nan else if 0 < b then pinf else ninf
  | ninf, fin b => if b = 0 then nan else if 0 < b then ninf else pinf
  | pinf, pinf => pinf
  | ninf, ninf => pinf
  | pinf, ninf => ninf
  | ninf, pinf => ninf

/-- IEEE division on modelled doubles; `x / 0` is a signed infinity for
`x ≠ 0` (numpy emits a warning but no exception) and `0 / 0 = nan`. -/
noncomputable def div : F → F → F
  | nan, _ => nan
  | _, nan => nan
  | fin a, fin b =>
      if b = 0 then (if a = 0 then nan else if 0 < a then pinf else ninf)
      else fin (a / b)
  | fin _, pinf => fin 0
  | fin _, ninf => fin 0
  | pinf, fin b => if 0 ≤ b then pinf else ninf
  | ninf, fin b => if 0 ≤ b then ninf else pinf
  | pinf, pinf => nan
  | pinf, ninf => nan
  | ninf, pinf => nan
  | ninf, ninf => nan

/-- Model of `np.sqrt`: NaN on negative inputs. -/
noncomputable def sqrtF : F → F
  | fin a => if a < 0 then nan else fin (Real.sqrt a)
  | pinf => pinf
  | ninf => nan
  | nan => nan

/-- Model of `np.log`: `log 0 = -inf`, NaN on negative inputs. -/
noncomputable def logF : F → F
  | fin a => if a < 0 then nan else if a = 0 then ninf else fin (Real.log a)
  | pinf => pinf
  | ninf => nan
  | nan => nan

/-- The relative tolerance `rel_tol=0.0001` used by the assertion in
`fill_asset_risk_contributions`. -/
noncomputable def rtol : ℝ := 1 / 10000

/-- Model of Python `math.isclose(a, b, rel_tol=0.0001)` (with the default
`abs_tol = 0`): equal infinities compare close, NaN compares close to
nothing, and finite values satisfy the two-sided relative bound. -/
def isclose : F → F → Prop
  | fin a, fin b => |a - b| ≤ rtol * |b| ∨ |a - b| ≤ rtol * |a|
  | pinf, pinf => True
  | ninf, ninf => True
  | _, _ => False

/-- Model of `np.sum` over a 1-d array of modelled doubles (the order of
summation does not matter for the properties proved here; any NaN or a
mixed-sign pair of infinities makes the total NaN). -/
def sum : List F → F
  | [] => fin 0
  | x :: xs => add x (sum xs)

/-- True exactly on the NaN value. -/
def isNanB : F → Bool
  | nan => true
  | _ => false

/-- The underlying real of a finite value, `0` otherwise. -/
def finVal : F → ℝ
  | fin a => a
  | _ => 0

lemma add_eq_fin {a b : F} {c : ℝ} (h : add a b = fin c) :
    ∃ x y, a = fin x ∧ b = fin y ∧ x + y = c := by
  cases a <;> cases b <;> simp [add] at h <;> exact ⟨_, _, rfl, rfl, h⟩

lemma add_eq_pinf {a b : F} (h : add a b = pinf) : a = pinf ∨ b = pinf := by
  cases a <;> cases b <;> simp [add] at h <;> simp

lemma sum_fin_mem {l : List F} {s : ℝ} (h : sum l = fin s) {x : F} (hx : x ∈ l) :
    ∃ r, x = fin r := by
  induction l generalizing s with
  | nil => cases hx
  | cons y ys ih =>
    obtain ⟨p, q, hy, hys, -⟩ := add_eq_fin h
    rcases List.mem_cons.mp hx with rfl | hx'
    · exact ⟨p, hy⟩
    · exact ih hys hx'

lemma sum_pinf_mem {l : List F} (h : sum l = pinf) : pinf ∈ l := by
  induction l with
  | nil => simp [sum] at h
  | cons y ys ih =>
    rcases add_eq_pinf h with hy | hys
    · exact hy ▸ List.mem_cons_self _ _
    · exact List.mem_cons_of_mem _ (ih hys)

lemma mul_eq_fin {a b : F} {c : ℝ} (h : mul a b = fin c) :
    ∃ x y, a = fin x ∧ b = fin y ∧ x * y = c := by
  cases a <;> cases b <;> simp only [mul] at h <;>
    first
      | exact ⟨_, _, rfl, rfl, fin.inj h⟩
      | ((repeat' split at h) <;> simp at h)

lemma mul_nan_left (b : F) : mul nan b = nan := by cases b <;> rfl

lemma mul_fin_zero_ne_pinf (b : F) : mul (fin 0) b ≠ pinf := by
  cases b <;> simp [mul]

lemma div_fin_fin {a b : ℝ} (hb : b ≠ 0) : div (fin a) (fin b) = fin (a / b) := by
  simp [div, hb]

lemma div_by_fin_zero_ne_fin (x : F) (r : ℝ) : div x (fin 0) ≠ fin r := by
  cases x <;> simp only [div] <;> (repeat' split) <;> simp_all

lemma div_pinf_cases (x : F) : div x pinf = fin 0 ∨ div x pinf = nan := by
  cases x <;> simp [div]

lemma sqrtF_ne_ninf (q : F) : sqrtF q ≠ ninf := by
  cases q <;> simp [sqrtF] <;> split <;> simp

lemma isclose_nan_right (x : F) : ¬ isclose x nan := by
  cases x <;> simp [isclose]

lemma isclose_pinf_right {x : F} (h : isclose x pinf) : x = pinf := by
  cases x <;> simp [isclose] at h <;> rfl

lemma isclose_fin_right {x : F} {b : ℝ} (h : isclose x (fin b)) :
    ∃ a, x = fin a ∧ (|a - b| ≤ rtol * |b| ∨ |a - b| ≤ rtol * |a|) := by
  cases x <;> simp [isclose] at h
  exact ⟨_, rfl, by simpa [isclose] using h⟩

lemma sum_map_div {l : List F} {cs sv : ℝ} (hsv : sv ≠ 0) (h : sum l = fin cs) :
    sum (l.map (fun x => div x (fin sv))) = fin (cs / sv) := by
  induction l generalizing cs with
  | nil =>
    simp only [sum, fin.injEq] at h
    simp [List.map, sum, ← h]
  | cons x xs ih =>
    obtain ⟨a, b, hx, hxs, hab⟩ := add_eq_fin h
    subst hx
    rw [List.map_cons, sum, div_fin_fin hsv, ih hxs, add, ← hab, div_add_div_same]

lemma isclose_div_one {cs sv : ℝ} (hsv : sv ≠ 0)
    (h : |cs - sv| ≤ rtol * |sv| ∨ |cs - sv| ≤ rtol * |cs|) :
    |cs / sv - 1| ≤ rtol * |1| ∨ |cs / sv - 1| ≤ rtol * |cs / sv| := by
  have habs : 0 < |sv| := abs_pos.mpr hsv
  have key : |cs / sv - 1| = |cs - sv| / |sv| := by
    rw [show cs / sv - 1 = (cs - sv) / sv by field_simp, abs_div]
  rcases h with h | h
  · left
    rw [key, abs_one, mul_one]
    calc |cs - sv| / |sv| ≤ rtol * |sv| / |sv| :=
          div_le_div_of_nonneg_right h habs.le
      _ = rtol := by field_simp
  · right
    rw [key, abs_div]
    calc |cs - sv| / |sv| ≤ rtol * |cs| / |sv| :=
          div_le_div_of_nonneg_right h habs.le
      _ = rtol * (|cs| / |sv|) := by ring

end F

/-- The exceptions the risk/returns pipeline can surface, under the names
the error taxonomy of the documentation gives them: `emptyInput` is the
IndexError hit when the asset mapping is empty, `keyError` the pandas
KeyError from dropping an absent ETH column, `missingAsset` the KeyError
from a balance lookup, `riskDecompositionInvariant` the AssertionError of
the reconciliation check, `notFound` a failed `get_asset` lookup.
`divisionByZero` is named by the taxonomy but, as proved below, never
produced by the code. -/
inductive Err where
  | emptyInput
  | keyError
  | missingAsset
  | divisionByZero
  | riskDecompositionInvariant
  | notFound
deriving DecidableEq

/-- Modelled from the spec: an Asset record of the Treasury Snapshot
(symbol, USD balance, mutable `risk_contribution` percentage field); the
defining module `app.libs.types` is not among the available sources. -/
structure Asset where
  token_symbol : String
  balance : F
  risk_contribution : Option F := none

/-- Modelled from the spec: the Treasury Snapshot (a list of Asset records
plus a `usd_total`); the defining module is not among the available
sources. -/
structure Treasury where
  assets : List Asset
  usd_total : F

/-- Modelled from the spec: `Treasury.get_asset` returns the first asset
with the given symbol and fails (StopIteration / `NotFoundError`) when no
asset matches; modelled as an `Option`. -/
def Treasury.get_asset (tr : Treasury) (sym : String) : Option Asset :=
  tr.assets.find? (fun a => a.token_symbol == sym)

/-! ### 4.1 Time Series Returns Builder (`make_returns_df`) -/

/-- `ROLLING_WINDOW_DAYS` from the source. -/
def ROLLING_WINDOW_DAYS : ℕ := 7

/-- Model of `Series.shift(periods=1)`: the value at row 0 becomes NaN and
every other row receives its predecessor's value. -/
def shift1 (l : List F) : List F := F.nan :: l.dropLast

/-- The raw log-return column `np.log(price / price.shift(1))` before any
replacement is applied. -/
noncomputable def rawReturns (prices : List F) : List F :=
  List.zipWith (fun a b => F.logF (F.div a b)) prices (shift1 prices)

/-- Model of `Series.replace(np.inf, 0)`. -/
def replacePinf (l : List F) : List F :=
  l.map (fun x => match x with | F.pinf => F.fin 0 | y => y)

/-- Model of `Series.replace(-np.inf, 0)`. -/
def replaceNinf (l : List F) : List F :=
  l.map (fun x => match x with | F.ninf => F.fin 0 | y => y)

/-- NaN is mapped to `0`; every other value is unchanged. -/
def nanToZero : F → F
  | F.nan => F.fin 0
  | y => y

/-- Model of `returns.iloc[1:].replace(np.nan, 0)`: the NaN replacement is
applied strictly after position 0, keeping the first NaN. -/
def replaceNanTail (l : List F) : List F :=
  match l with
  | [] => []
  | x :: xs => x :: xs.map nanToZero

/-- The `returns` column produced by `make_returns_df` (source lines
16–23): log-returns with infinities replaced by `0` everywhere and NaN
replaced by `0` from position 1 onward. -/
noncomputable def returnsCol (prices : List F) : List F :=
  replaceNanTail (replaceNinf (replacePinf (rawReturns prices)))

/-- Population variance of a list of reals (`ddof = 0`). -/
noncomputable def popVar (xs : List ℝ) : ℝ :=
  ((xs.map (fun x => (x - xs.sum / xs.length) ^ 2)).sum) / xs.length

/-- Population standard deviation of a list of reals (`ddof = 0`). -/
noncomputable def popStd (xs : List ℝ) : ℝ := Real.sqrt (popVar xs)

/-- Model of `Series.rolling(w).std(ddof=0)` as used on the cleaned
returns column: NaN while the window is not yet full, NaN whenever the
full window still contains a NaN (pandas counts non-NaN observations
against `min_periods = w`), and otherwise the population standard
deviation of the window.  (The cleaned returns column never contains an
infinity, so no separate infinity handling is required here.) -/
noncomputable def rollingStd (w : ℕ) (l : List F) : List F :=
  (List.range l.length).map (fun t =>
    if t + 1 < w then F.nan
    else
      let win := (l.take (t + 1)).drop (t + 1 - w)
      if win.any F.isNanB then F.nan
      else F.fin (popStd (win.map F.finVal)))

/-- The `std_dev` column produced by `make_returns_df` (source line 24). -/
noncomputable def stdDevCol (prices : List F) : List F :=
  rollingStd ROLLING_WINDOW_DAYS (returnsCol prices)

/-! ### 4.2 Returns Matrix Aligner (`make_returns_matrix`) -/

/-- One asset's price-history table, reduced to the two columns the
aligner reads: `timestamp` (modelled as a natural number) and `returns`. -/
abbrev Rdf := List (ℕ × F)

/-- Stable insertion into a timestamp-sorted list. -/
def insertByTs (x : ℕ × F) : Rdf → Rdf
  | [] => [x]
  | y :: ys => if x.1 < y.1 then x :: y :: ys else y :: insertByTs x ys

/-- Model of `DataFrame.sort_index()` on a timestamp-indexed table. -/
def sortByTs (df : Rdf) : Rdf := df.foldr insertByTs []

/-- Model of `hist_prices.sort_index().loc[start:end]`: sort by timestamp,
then keep the inclusive window. -/
def sliceSorted (df : Rdf) (s e : ℕ) : Rdf :=
  (sortByTs df).filter (fun r => decide (s ≤ r.1 ∧ r.1 ≤ e))

/-- The returns matrix: named columns over timestamp-keyed rows. -/
structure RMatrix where
  colNames : List String
  rows : List (ℕ × List F)

/-- One step of the reduction: `matrix.merge(df.rename(returns → symbol),
on="timestamp")`, an inner join preserving the left row order and
appending the new symbol's column. -/
def mergeStep (M : RMatrix) (p : String × Rdf) : RMatrix :=
  { colNames := M.colNames ++ [p.1],
    rows := M.rows.filterMap (fun r =>
      ((p.2.find? (fun q => q.1 == r.1)).map (fun q => (r.1, r.2 ++ [q.2])))) }

/-- Model of `DataFrame.drop(name, axis=1)` once the label is known to be
present: remove every column carrying the label. -/
def dropColumn (M : RMatrix) (name : String) : RMatrix :=
  { colNames := M.colNames.filter (fun nm => nm ≠ name),
    rows := M.rows.map (fun r =>
      (r.1, ((M.colNames.zip r.2).filter (fun p => p.1 ≠ name)).map Prod.snd)) }

/-- The reduction at the heart of `make_returns_matrix`.  The empty
mapping hits `hist_prices_items[0]` (an IndexError, `EmptyInputError` in
the taxonomy).  The seed keeps its column literally named `"returns"`
(the source's rename maps the misspelled key `"return"`, a no-op) and the
fold runs over every item including the first; the stray `"returns"`
column is dropped afterwards.  When the treasury holds no ETH the code
unconditionally drops the `"ETH"` column, a KeyError when absent. -/
def joinedMatrix (items : List (String × Rdf)) (first : String × Rdf) : RMatrix :=
  dropColumn
    (items.foldl mergeStep ⟨["returns"], first.2.map (fun r => (r.1, [r.2]))⟩)
    "returns"

/-- Embedding of the body of `make_returns_matrix` (source lines 28–72),
dispatching on the sliced item list and the ETH carve-out; see
`joinedMatrix` for the join itself. -/
def make_returns_matrix (tr : Treasury) (m : List (String × Rdf)) (s e : ℕ) :
    Except Err RMatrix :=
  match m with
  | [] => .error .emptyInput
  | p :: rest =>
    let dropped := joinedMatrix ((p :: rest).map (fun q => (q.1, sliceSorted q.2 s e)))
      (p.1, sliceSorted p.2 s e)
    match tr.get_asset "ETH" with
    | some _ => .ok dropped
    | none =>
      if "ETH" ∈ dropped.colNames then .ok (dropColumn dropped "ETH")
      else .error .keyError

/-- The matrix's columns as value lists, in column order. -/
def RMatrix.columns (M : RMatrix) : List (List F) :=
  (List.range M.colNames.length).map (fun i => M.rows.map (fun r => r.2.getD i F.nan))

/-! ### 4.3 Risk Decomposition Engine (`fill_asset_risk_contributions`) -/

/-- The balance the dict comprehension
`{asset.token_symbol: asset.balance for asset in treasury.assets}`
associates to a symbol (for duplicate symbols the last asset wins). -/
def balanceOf (tr : Treasury) (sym : String) : Option F :=
  ((tr.assets.reverse).find? (fun a => a.token_symbol == sym)).map (·.balance)

/-- Look every element up, failing on the first miss (the generator fed to
`np.fromiter` raises KeyError at the first missing symbol). -/
def lookupAll {α β : Type} (f : α → Option β) : List α → Option (List β)
  | [] => some []
  | a :: l =>
    match f a, lookupAll f l with
    | some b, some bs => some (b :: bs)
    | _, _ => none

/-- The weight vector `balances / usd_total` over the matrix columns; a
column symbol without a treasury balance is a KeyError
(`MissingAssetError`). -/
noncomputable def weightsOf (tr : Treasury) (syms : List String) : Except Err (List F) :=
  match lookupAll (balanceOf tr) syms with
  | none => .error .missingAsset
  | some bs => .ok (bs.map (fun b => F.div b tr.usd_total))

/-- Pairwise sample covariance of two columns, as `DataFrame.cov()`
computes it: rows where either value is NaN are excluded pairwise, the
denominator is `n - 1`, and fewer than two complete pairs give NaN. -/
noncomputable def covF (xs ys : List F) : F :=
  let ps := (xs.zip ys).filter (fun p => !(F.isNanB p.1) && !(F.isNanB p.2))
  if ps.length < 2 then F.nan
  else
    let nr : ℝ := ps.length
    let mx := F.div (F.sum (ps.map Prod.fst)) (F.fin nr)
    let my := F.div (F.sum (ps.map Prod.snd)) (F.fin nr)
    F.div (F.sum (ps.map (fun p => F.mul (F.sub p.1 mx) (F.sub p.2 my))))
      (F.fin (nr - 1))

/-- The covariance matrix of the returns matrix columns,
`returns_matrix.cov()`: entry `(i, j)` is `covF col_i col_j`. -/
noncomputable def covMatrix (cols : List (List F)) : List (List F) :=
  cols.map (fun ci => cols.map (fun cj => covF ci cj))

/-- Dot product of two vectors of modelled doubles. -/
noncomputable def dotF (xs ys : List F) : F := F.sum (List.zipWith F.mul xs ys)

/-- `weights.dot(cov_matrix)`: entry `j` is the dot product of the weight
vector with column `j` of the covariance matrix. -/
noncomputable def wDotCov (w : List F) (cols : List (List F)) : List F :=
  (List.range cols.length).map (fun j =>
    dotF w ((covMatrix cols).map (fun row => row.getD j F.nan)))

/-- `std_dev[0][0] = sqrt(weights ⬝ cov ⬝ weightsᵀ)` (source line 98). -/
noncomputable def sigmaP (w : List F) (cols : List (List F)) : F :=
  F.sqrtF (dotF (wDotCov w cols) w)

/-- The component contribution vector
`np.multiply(weights.dot(cov)/σ, weights)` (source lines 100–101). -/
noncomputable def componentContribs (w : List F) (cols : List (List F)) : List F :=
  List.zipWith F.mul ((wDotCov w cols).map (fun x => F.div x (sigmaP w cols))) w

/-- Set the `risk_contribution` of the first asset carrying the symbol. -/
def setRisk : List Asset → String → F → List Asset
  | [], _, _ => []
  | a :: rest, sym, p =>
    if a.token_symbol == sym then { a with risk_contribution := some p } :: rest
    else a :: setRisk rest sym p

/-- The assignment loop of source lines 111–113: for each column symbol in
order, look the asset up (StopIteration when absent) and overwrite its
`risk_contribution`. -/
def assignAll (tr : Treasury) : List (String × F) → Except Err Treasury
  | [] => .ok tr
  | (sym, p) :: rest =>
    match tr.get_asset sym with
    | none => .error .notFound
    | some _ => assignAll ⟨setRisk tr.assets sym p, tr.usd_total⟩ rest

open scoped Classical

/-- Embedding of `fill_asset_risk_contributions` (source lines 76–115):
build the matrix, build the weights, compute `σ_p` and the component
contributions, assert `isclose(Σc, σ_p, rel_tol=1e-4)` (AssertionError =
`RiskDecompositionInvariantError` when it fails), then assign the
percentage contributions column by column. -/
noncomputable def fill_asset_risk_contributions (tr : Treasury)
    (m : List (String × Rdf)) (s e : ℕ) : Except Err Treasury :=
  match make_returns_matrix tr m s e with
  | .error err => .error err
  | .ok M =>
    match weightsOf tr M.colNames with
    | .error err => .error err
    | .ok w =>
      let comps := componentContribs w M.columns
      if F.isclose (F.sum comps) (sigmaP w M.columns) then
        assignAll tr (M.colNames.zip (comps.map (fun c => F.div c (sigmaP w M.columns))))
      else .error .riskDecompositionInvariant

/-- The `risk_contribution` recorded on the (first) asset carrying a
symbol; NaN when the asset or the field is absent. -/
def riskContribution (tr : Treasury) (sym : String) : F :=
  match tr.get_asset sym with
  | some a => a.risk_contribution.getD F.nan
  | none => F.nan

/-! ### 4.5 Balance-Spread Backtester — modelled from the spec -/

namespace Spread

/-- A balance time series: finitely many recorded (date, balance) points;
dates are modelled as natural numbers.  Exact rationals stand in for the
balances, the backtester contract being purely algebraic. -/
abbrev Series := List (ℕ × ℚ)

/-- A Balances map: symbol-keyed balance series. -/
abbrev SBalances := List (String × Series)

/-- The series recorded for a symbol; the empty series when absent. -/
def lookupSeries (bs : SBalances) (sym : String) : Series :=
  ((bs.find? (fun p => p.1 == sym)).map Prod.snd).getD []

/-- The value a series records at a date, when any. -/
def valueAt (s : Series) (d : ℕ) : Option ℚ :=
  (s.find? (fun r => r.1 == d)).map Prod.snd

/-- Replace (or create) the series stored under a symbol. -/
def setSeries (bs : SBalances) (sym : String) (s : Series) : SBalances :=
  (sym, s) :: bs.filter (fun p => !(p.1 == sym))

/-- The inclusive date window `[start, endd]`. -/
def windowDates (start endd : ℕ) : List ℕ :=
  (List.range (endd + 1 - start)).map (fun i => i + start)

/-- The least element of a list of dates, when any. -/
def minDate : List ℕ → Option ℕ
  | [] => none
  | d :: ds =>
    match minDate ds with
    | none => some d
    | some d' => some (min d d')

/-- The first date at or after `start` on which the series records a
balance. -/
def firstRecordedFrom (t : Series) (start : ℕ) : Option ℕ :=
  minDate ((t.map Prod.fst).filter (fun d => decide (start ≤ d)))

/-- Modelled from the spec: the swap amount,
`source_balance_at_start_date * pct/100`, computed once at `start_date`. -/
def swapAmount (s : Series) (pct : ℚ) (start : ℕ) : ℚ :=
  (valueAt s start).getD 0 * pct / 100

/-- Modelled from the spec: the swapped amount carried through date `d` —
flat before the target's first recorded date at or after `start` (and
when the target never records, or records a zero reference balance),
then riding the target's own rate of return. -/
def carriedAt (t : Series) (amount : ℚ) (start d : ℕ) : ℚ :=
  match firstRecordedFrom t start with
  | none => amount
  | some dref =>
    if d < dref then amount
    else
      match valueAt t dref, valueAt t d with
      | some vref, some vd => if vref = 0 then amount else amount * vd / vref
      | _, _ => amount

/-- Modelled from the spec: the source series scaled by `1 - pct/100`
over the output window. -/
def newSource (s : Series) (pct : ℚ) (start endd : ℕ) : Series :=
  (windowDates start endd).filterMap (fun d =>
    (valueAt s d).map (fun v => (d, v * (1 - pct / 100))))

/-- Modelled from the spec: the carried swapped amount added on top of
any pre-existing target balance, over the output window. -/
def newTarget (t : Series) (amount : ℚ) (start endd : ℕ) : Series :=
  (windowDates start endd).map (fun d =>
    (d, carriedAt t amount start d + (valueAt t d).getD 0))

/-- Modelled from the spec: `update_balances_with_spread`
(`backend/app/spread/actions.py` is not among the available sources; only
its tests are).  Built to the binding contract of the specification's
section 4.5: if the source series has no record at or before `start_date`
no swap occurs (target all zero over the window, source passed through
unchanged); otherwise the swap amount is `source[start] * pct/100`, the
source series is scaled by `1 - pct/100` over the window, and the swapped
amount rides the target's own rate of return from the target's first
recorded date at or after `start_date` (flat-carried before that), added
on top of any pre-existing target balance. -/
def update_balances_with_spread (bs : SBalances) (source target : String)
    (pct : ℚ) (start endd : ℕ) : SBalances :=
  let s := lookupSeries bs source
  let t := lookupSeries bs target
  if s.all (fun r => decide (start < r.1)) then
    setSeries (setSeries bs target ((windowDates start endd).map (fun d => (d, 0)))) source s
  else
    setSeries (setSeries bs target (newTarget t (swapAmount s pct start) start endd))
      source (newSource s pct start endd)

end Spread

/-! ## Concrete example data used by witnesses and counterexamples -/

/-- A three-row returns table with returns `1, 2, 3` at timestamps
`0, 1, 2`. -/
def exampleDf : Rdf := [(0, F.fin 1), (1, F.fin 2), (2, F.fin 3)]

/-- A mapping carrying only an ETH history. -/
def exampleMap : List (String × Rdf) := [("ETH", exampleDf)]

/-- A mapping carrying ETH and a symbol `"B"` the treasury lacks. -/
def exampleMapB : List (String × Rdf) := [("ETH", exampleDf), ("B", exampleDf)]

/-- A treasury holding one ETH asset with balance 1 and total 1. -/
def trPos : Treasury := ⟨[⟨"ETH", F.fin 1, none⟩], F.fin 1⟩

/-- A treasury with an externally supplied total of zero. -/
def trZero : Treasury := ⟨[⟨"ETH", F.fin 1, none⟩], F.fin 0⟩

/-- A treasury with negative balance and negative total. -/
def trNeg : Treasury := ⟨[⟨"ETH", F.fin (-1), none⟩], F.fin (-1)⟩

/-- A treasury holding only the symbol `"A"` (no ETH). -/
def trA : Treasury := ⟨[⟨"A", F.fin 1, none⟩], F.fin 1⟩

/-- The returns matrix the aligner produces from `exampleMap` for an
ETH-holding treasury over the window `[0, 2]`. -/
def exampleM : RMatrix := ⟨["ETH"], [(0, [F.fin 1]), (1, [F.fin 2]), (2, [F.fin 3])]⟩

/-- The returns matrix produced from `exampleMapB` over `[0, 2]`. -/
def exampleMB : RMatrix :=
  ⟨["ETH", "B"], [(0, [F.fin 1, F.fin 1]), (1, [F.fin 2, F.fin 2]), (2, [F.fin 3, F.fin 3])]⟩

/-- The zero-column matrix left after the ETH carve-out drops the only
column (`trA` holds no ETH). -/
def exampleMEmpty : RMatrix := ⟨[], [(0, []), (1, []), (2, [])]⟩

/-! ## The returns-builder edge-case policy -/

lemma F.div_nan_right (x : F) : F.div x F.nan = F.nan := by cases x <;> rfl

lemma F.logF_nan : F.logF F.nan = F.nan := rfl

lemma isNanB_nanToZero (x : F) : F.isNanB (nanToZero x) = false := by
  cases x <;> rfl

lemma rawReturns_length (ps : List F) : (rawReturns ps).length = ps.length := by
  cases ps with
  | nil => rfl
  | cons p rest =>
    simp [rawReturns, shift1, List.length_zipWith]

lemma replacePinf_length (l : List F) : (replacePinf l).length = l.length := by
  simp [replacePinf]

lemma replaceNinf_length (l : List F) : (replaceNinf l).length = l.length := by
  simp [replaceNinf]

lemma replaceNanTail_length (l : List F) : (replaceNanTail l).length = l.length := by
  cases l <;> simp [replaceNanTail]

lemma returnsCol_length (ps : List F) : (returnsCol ps).length = ps.length := by
  rw [returnsCol, replaceNanTail_length, replaceNinf_length, replacePinf_length,
    rawReturns_length]

lemma rollingStd_length (w : ℕ) (l : List F) : (rollingStd w l).length = l.length := by
  simp [rollingStd]

lemma stdDevCol_length (ps : List F) : (stdDevCol ps).length = ps.length := by
  rw [stdDevCol, rollingStd_length, returnsCol_length]

lemma getD_map_lt {l : List F} {f : F → F} {i : ℕ} (h : i < l.length) (d : F) :
    (l.map f).getD i d = f (l.getD i d) := by
  rw [List.getD_eq_getElem _ _ (by simpa using h), List.getD_eq_getElem _ _ h,
    List.getElem_map]

lemma rawReturns_cons (p : F) (rest : List F) :
    rawReturns (p :: rest) =
      F.nan :: List.zipWith (fun a b => F.logF (F.div a b)) rest ((p :: rest).dropLast) := by
  rw [rawReturns, shift1, List.zipWith_cons_cons, F.div_nan_right, F.logF_nan]

lemma returnsCol_cons (p : F) (rest : List F) :
    returnsCol (p :: rest) =
      F.nan ::
        (replaceNinf (replacePinf
          (List.zipWith (fun a b => F.logF (F.div a b)) rest ((p :: rest).dropLast)))).map
          nanToZero := by
  rw [returnsCol, rawReturns_cons, replacePinf, List.map_cons, replaceNinf, List.map_cons]
  rfl

lemma returnsCol_head_nan (ps : List F) (h : 0 < ps.length) :
    (returnsCol ps).getD 0 F.nan = F.nan := by
  cases ps with
  | nil => cases h
  | cons p rest => rw [returnsCol_cons]; rfl

lemma returnsCol_tail_no_nan (ps : List F) :
    ∀ x ∈ (returnsCol ps).drop 1, F.isNanB x = false := by
  cases ps with
  | nil => intro x hx; cases hx
  | cons p rest =>
    rw [returnsCol_cons]
    intro x hx
    rw [List.drop_one, List.tail_cons] at hx
    obtain ⟨y, -, rfl⟩ := List.mem_map.mp hx
    exact isNanB_nanToZero y

lemma replaceNanTail_getD_tail {l : List F} {i : ℕ} (h1 : 1 ≤ i) (h2 : i < l.length) :
    (replaceNanTail l).getD i F.nan = nanToZero (l.getD i F.nan) := by
  cases l with
  | nil => cases h2
  | cons x xs =>
    obtain ⟨j, rfl⟩ : ∃ j, i = j + 1 := ⟨i - 1, by omega⟩
    rw [replaceNanTail, List.getD_cons_succ, List.getD_cons_succ]
    exact getD_map_lt (by simpa using h2) _

/-- C6 (confirmed): in the returns column of `make_returns_df`, a raw
log-return equal to `+inf` or `-inf` is replaced by `0`, a NaN at any
position `≥ 1` is replaced by `0`, and the position-0 value is left as
NaN. -/
theorem returns_builder_edge_policy (ps : List F) :
    (0 < ps.length → (returnsCol ps).getD 0 F.nan = F.nan) ∧
    (∀ i, 1 ≤ i → i < ps.length →
      ((rawReturns ps).getD i F.nan = F.pinf ∨ (rawReturns ps).getD i F.nan = F.ninf ∨
        (rawReturns ps).getD i F.nan = F.nan) →
      (returnsCol ps).getD i F.nan = F.fin 0) := by
  constructor
  · exact returnsCol_head_nan ps
  · intro i h1 h2 hcase
    have hlenR : i < (rawReturns ps).length := by rw [rawReturns_length]; exact h2
    have hlenP : i < (replacePinf (rawReturns ps)).length := by
      rw [replacePinf_length]; exact hlenR
    have hlenN : i < (replaceNinf (replacePinf (rawReturns ps))).length := by
      rw [replaceNinf_length]; exact hlenP
    rw [returnsCol, replaceNanTail_getD_tail h1 hlenN, replaceNinf, getD_map_lt hlenP,
      replacePinf, getD_map_lt hlenR]
    rcases hcase with hc | hc | hc <;> rw [hc] <;> rfl

/-- C6 witness: prices `[1, 0, 1]` produce a `-inf` raw log-return at
position 1 (price dropping to zero) which the policy replaces by `0`,
while position 0 stays NaN. -/
theorem returns_builder_edge_policy_witness :
    (returnsCol [F.fin 1, F.fin 0, F.fin 1]).getD 0 F.nan = F.nan ∧
      (rawReturns [F.fin 1, F.fin 0, F.fin 1]).getD 1 F.nan = F.ninf ∧
      (returnsCol [F.fin 1, F.fin 0, F.fin 1]).getD 1 F.nan = F.fin 0 := by
  have hraw : (rawReturns [F.fin 1, F.fin 0, F.fin 1]).getD 1 F.nan = F.ninf := by
    rw [rawReturns_cons]
    rw [List.getD_cons_succ]
    norm_num [List.zipWith, F.div, F.logF]
  refine ⟨(returns_builder_edge_policy _).1 (by norm_num), hraw, ?_⟩
  exact (returns_builder_edge_policy _).2 1 (by norm_num) (by norm_num)
    (Or.inr (Or.inl hraw))

lemma getD_map_range {n : ℕ} {f : ℕ → F} {t : ℕ} (h : t < n) (d : F) :
    ((List.range n).map f).getD t d = f t := by
  rw [List.getD_eq_getElem _ _ (by simpa using h), List.getElem_map, List.getElem_range]

lemma rollingStd_getD {w : ℕ} {l : List F} {t : ℕ} (h : t < l.length) :
    (rollingStd w l).getD t F.nan =
      if t + 1 < w then F.nan
      else if ((l.take (t + 1)).drop (t + 1 - w)).any F.isNanB then F.nan
      else F.fin (popStd (((l.take (t + 1)).drop (t + 1 - w)).map F.finVal)) := by
  rw [rollingStd, getD_map_range h]

/-- C7 (confirmed): the `std_dev` column of `make_returns_df` is NaN at
every position with fewer than 7 preceding periods (for `t < 6` the
rolling window is not yet full; at `t = 6` the full window still contains
the position-0 NaN, which pandas counts against `min_periods`), and for
`t ≥ 7` it equals the population standard deviation (no
degrees-of-freedom correction) of the returns column over the trailing 7
periods ending at `t`. -/
theorem stddev_rolling_policy (ps : List F) (t : ℕ) (ht : t < ps.length) :
    (t < 7 → (stdDevCol ps).getD t F.nan = F.nan) ∧
    (7 ≤ t → (stdDevCol ps).getD t F.nan
        = F.fin (popStd ((((returnsCol ps).drop (t + 1 - 7)).take 7).map F.finVal))) := by
  have htc : t < (returnsCol ps).length := by rw [returnsCol_length]; exact ht
  constructor
  · intro h7
    rw [stdDevCol, rollingStd_getD htc]
    simp only [ROLLING_WINDOW_DAYS]
    by_cases hlt : t + 1 < 7
    · rw [if_pos hlt]
    · rw [if_neg hlt]
      have ht6 : t = 6 := by omega
      subst ht6
      cases hps : ps with
      | nil => rw [hps] at ht; cases ht
      | cons p rest =>
        rw [show (6 + 1 - 7 : ℕ) = 0 from rfl, List.drop_zero, returnsCol_cons]
        rw [if_pos ?_]
        rw [List.take_succ_cons, List.any_cons]
        simp [F.isNanB]
  · intro h7
    rw [stdDevCol, rollingStd_getD htc]
    simp only [ROLLING_WINDOW_DAYS]
    rw [if_neg (by omega)]
    have hany : (((returnsCol ps).take (t + 1)).drop (t + 1 - 7)).any F.isNanB = false := by
      rw [List.any_eq_false]
      intro x hx
      rw [List.drop_take] at hx
      have h1 : x ∈ (returnsCol ps).drop (t + 1 - 7) := List.mem_of_mem_take hx
      have hdd : (returnsCol ps).drop (t + 1 - 7)
          = ((returnsCol ps).drop 1).drop (t + 1 - 7 - 1) := by
        rw [List.drop_drop]
        congr 1
        omega
      rw [hdd] at h1
      have h2 : x ∈ (returnsCol ps).drop 1 := List.mem_of_mem_drop h1
      simp [returnsCol_tail_no_nan ps x h2]
    rw [if_neg (by rw [hany]; simp)]
    have hwin : ((returnsCol ps).take (t + 1)).drop (t + 1 - 7)
        = ((returnsCol ps).drop (t + 1 - 7)).take 7 := by
      rw [List.drop_take]
      congr 1
      omega
    rw [hwin]

/-- C7 witness: nine constant prices give returns `[NaN, 0 × 8]`; the
`std_dev` entry at position 0 is NaN, and the entry at position 7 is the
population standard deviation of the trailing window. -/
theorem stddev_rolling_policy_witness :
    (stdDevCol (List.replicate 9 (F.fin 1))).getD 0 F.nan = F.nan ∧
      (stdDevCol (List.replicate 9 (F.fin 1))).getD 7 F.nan
        = F.fin (popStd ((((returnsCol (List.replicate 9 (F.fin 1))).drop 1).take 7).map
            F.finVal)) := by
  constructor
  · exact (stddev_rolling_policy _ 0 (by simp)).1 (by norm_num)
  · exact (stddev_rolling_policy _ 7 (by simp)).2 (by norm_num)

/-! ## Structural lemmas about the returns matrix aligner -/

lemma foldl_mergeStep_colNames (l : List (String × Rdf)) (M : RMatrix) :
    (l.foldl mergeStep M).colNames = M.colNames ++ l.map Prod.fst := by
  induction l generalizing M with
  | nil => simp
  | cons p ps ih =>
    rw [List.foldl_cons, ih, List.map_cons]
    simp [mergeStep]

lemma joinedMatrix_colNames (items : List (String × Rdf)) (first : String × Rdf) :
    (joinedMatrix items first).colNames =
      (items.map Prod.fst).filter (fun nm => decide (nm ≠ "returns")) := by
  simp [joinedMatrix, dropColumn, foldl_mergeStep_colNames]

lemma make_returns_matrix_ok_sublist {tr : Treasury} {m : List (String × Rdf)}
    {s e : ℕ} {M : RMatrix} (h : make_returns_matrix tr m s e = .ok M) :
    M.colNames.Sublist (m.map Prod.fst) := by
  cases m with
  | nil => simp [make_returns_matrix] at h
  | cons p rest =>
    have hsub : (joinedMatrix
        ((p :: rest).map (fun q => (q.1, sliceSorted q.2 s e)))
        (p.1, sliceSorted p.2 s e)).colNames.Sublist ((p :: rest).map Prod.fst) := by
      rw [joinedMatrix_colNames]
      have hkeys : ((p :: rest).map (fun q => (q.1, sliceSorted q.2 s e))).map Prod.fst
          = (p :: rest).map Prod.fst := by
        simp
      rw [hkeys]
      exact List.filter_sublist _
    simp only [make_returns_matrix] at h
    rcases hE : tr.get_asset "ETH" with - | a <;> simp only [hE] at h
    · by_cases hm : "ETH" ∈ (joinedMatrix
          ((p :: rest).map (fun q => (q.1, sliceSorted q.2 s e)))
          (p.1, sliceSorted p.2 s e)).colNames
      · rw [if_pos hm, Except.ok.injEq] at h
        subst h
        refine List.Sublist.trans ?_ hsub
        simp only [dropColumn]
        exact List.filter_sublist _
      · rw [if_neg hm] at h
        cases h
    · rw [Except.ok.injEq] at h
      subst h
      exact hsub

lemma make_returns_matrix_ok_nodup {tr : Treasury} {m : List (String × Rdf)}
    {s e : ℕ} {M : RMatrix} (h : make_returns_matrix tr m s e = .ok M)
    (hnd : (m.map Prod.fst).Nodup) : M.colNames.Nodup :=
  (make_returns_matrix_ok_sublist h).nodup hnd

/-- C5 (confirmed): for every Treasury Snapshot and window, calling
`make_returns_matrix` with an empty asset mapping fails with the
`EmptyInputError` of the taxonomy (the IndexError raised when the item
list built from the mapping is empty). -/
theorem make_returns_matrix_empty_input (tr : Treasury) (s e : ℕ) :
    make_returns_matrix tr [] s e = .error .emptyInput := rfl

/-- C10 (confirmed): whenever the treasury has no asset with symbol
`"ETH"` and `"ETH"` is not a key of the asset mapping (so the joined
matrix has no ETH column), `make_returns_matrix` fails with an exception:
the ETH-column drop after the join is attempted unconditionally on a
treasury lookup miss (KeyError; the empty mapping fails even earlier,
with the empty-input error). -/
theorem make_returns_matrix_eth_drop_fails (tr : Treasury)
    (m : List (String × Rdf)) (s e : ℕ)
    (hETH : tr.get_asset "ETH" = none)
    (hkey : "ETH" ∉ m.map Prod.fst) :
    ∃ err, make_returns_matrix tr m s e = .error err := by
  cases m with
  | nil => exact ⟨.emptyInput, rfl⟩
  | cons p rest =>
    refine ⟨.keyError, ?_⟩
    have hnotin : "ETH" ∉ (joinedMatrix
        ((p :: rest).map (fun q => (q.1, sliceSorted q.2 s e)))
        (p.1, sliceSorted p.2 s e)).colNames := by
      rw [joinedMatrix_colNames]
      have hkeys : ((p :: rest).map (fun q => (q.1, sliceSorted q.2 s e))).map Prod.fst
          = (p :: rest).map Prod.fst := by
        simp
      rw [hkeys]
      intro hmem
      exact hkey (List.mem_of_mem_filter hmem)
    simp only [make_returns_matrix, hETH]
    simp only [if_neg hnotin]

/-! ## Lemmas about the weight vector and the decomposition body -/

lemma lookupAll_length {α β : Type} {f : α → Option β} :
    ∀ {l : List α} {bs : List β}, lookupAll f l = some bs → bs.length = l.length := by
  intro l
  induction l with
  | nil => intro bs h; cases h; rfl
  | cons a l ih =>
    intro bs h
    rw [lookupAll] at h
    cases hfa : f a with
    | none => rw [hfa] at h; cases h
    | some b =>
      rw [hfa] at h
      cases hml : lookupAll f l with
      | none => rw [hml] at h; cases h
      | some xs =>
        rw [hml] at h
        cases h
        simp [ih hml]

lemma lookupAll_eq_none {α β : Type} {f : α → Option β} {l : List α} {x : α}
    (hx : x ∈ l) (hfx : f x = none) : lookupAll f l = none := by
  induction l with
  | nil => cases hx
  | cons a l ih =>
    rw [lookupAll]
    rcases List.mem_cons.mp hx with rfl | hx'
    · rw [hfx]
    · rw [ih hx']
      cases hfa : f a <;> rfl

lemma weightsOf_ok_length {tr : Treasury} {syms : List String} {w : List F}
    (h : weightsOf tr syms = .ok w) : w.length = syms.length := by
  unfold weightsOf at h
  cases hm : lookupAll (balanceOf tr) syms with
  | none => rw [hm] at h; cases h
  | some bs =>
    rw [hm] at h
    rw [Except.ok.injEq] at h
    subst h
    simp [lookupAll_length hm]

lemma weightsOf_missing {tr : Treasury} {syms : List String} {sym : String}
    (hsym : sym ∈ syms) (hb : balanceOf tr sym = none) :
    weightsOf tr syms = .error .missingAsset := by
  unfold weightsOf
  rw [lookupAll_eq_none hsym hb]

lemma weightsOf_error {tr : Treasury} {syms : List String} {err : Err}
    (h : weightsOf tr syms = .error err) : err = .missingAsset := by
  unfold weightsOf at h
  cases hm : lookupAll (balanceOf tr) syms with
  | none => rw [hm] at h; cases h; rfl
  | some bs => rw [hm] at h; cases h

lemma fill_ok_unfold {tr : Treasury} {m : List (String × Rdf)} {s e : ℕ} {M : RMatrix}
    (hM : make_returns_matrix tr m s e = .ok M) :
    fill_asset_risk_contributions tr m s e =
      match weightsOf tr M.colNames with
      | .error err => .error err
      | .ok w =>
        if F.isclose (F.sum (componentContribs w M.columns)) (sigmaP w M.columns) then
          assignAll tr (M.colNames.zip ((componentContribs w M.columns).map
            (fun c => F.div c (sigmaP w M.columns))))
        else .error .riskDecompositionInvariant := by
  unfold fill_asset_risk_contributions
  rw [hM]

lemma make_returns_matrix_error_cases {tr : Treasury} {m : List (String × Rdf)}
    {s e : ℕ} {err : Err} (h : make_returns_matrix tr m s e = .error err) :
    err = .emptyInput ∨ err = .keyError := by
  cases m with
  | nil =>
    simp only [make_returns_matrix, Except.error.injEq] at h
    exact Or.inl h.symm
  | cons p rest =>
    simp only [make_returns_matrix] at h
    cases hE : tr.get_asset "ETH" with
    | none =>
      simp only [hE] at h
      by_cases hm : "ETH" ∈ (joinedMatrix
          ((p :: rest).map (fun q => (q.1, sliceSorted q.2 s e)))
          (p.1, sliceSorted p.2 s e)).colNames
      · rw [if_pos hm] at h; cases h
      · rw [if_neg hm] at h; cases h; exact Or.inr rfl
    | some a => simp only [hE] at h; cases h

lemma assignAll_never_divisionByZero :
    ∀ (pairs : List (String × F)) (tr : Treasury),
      assignAll tr pairs ≠ .error .divisionByZero := by
  intro pairs
  induction pairs with
  | nil => intro tr h; cases h
  | cons q rest ih =>
    intro tr h
    rw [assignAll] at h
    cases hE : tr.get_asset q.1 with
    | none => rw [hE] at h; cases h
    | some a => rw [hE] at h; exact ih _ h

/-- C8 (confirmed): when some column symbol of the Returns Matrix has no
matching Asset balance in the Treasury Snapshot, the decomposition fails
with the `MissingAssetError` of the taxonomy (a KeyError raised while the
weight vector is built, hence before any `risk_contribution` is
assigned). -/
theorem fill_missing_asset (tr : Treasury) (m : List (String × Rdf)) (s e : ℕ)
    (M : RMatrix) (hM : make_returns_matrix tr m s e = .ok M)
    (hmiss : ∃ sym ∈ M.colNames, balanceOf tr sym = none) :
    fill_asset_risk_contributions tr m s e = .error .missingAsset := by
  obtain ⟨sym, hsym, hb⟩ := hmiss
  rw [fill_ok_unfold hM, weightsOf_missing hsym hb]

/-- C2 (confirmed): when the component contributions fail to reconcile
with portfolio volatility within the `1e-4` relative tolerance, the run
aborts with the `RiskDecompositionInvariantError` (the AssertionError of
source lines 105–107) and in particular never returns a treasury, so no
`risk_contribution` computed from an unreconciled decomposition is ever
published. -/
theorem fill_invariant_gate (tr : Treasury) (m : List (String × Rdf)) (s e : ℕ)
    (M : RMatrix) (w : List F) (hM : make_returns_matrix tr m s e = .ok M)
    (hw : weightsOf tr M.colNames = .ok w)
    (hbad : ¬ F.isclose (F.sum (componentContribs w M.columns)) (sigmaP w M.columns)) :
    fill_asset_risk_contributions tr m s e = .error .riskDecompositionInvariant ∧
      ∀ tr', fill_asset_risk_contributions tr m s e ≠ .ok tr' := by
  have hfill : fill_asset_risk_contributions tr m s e
      = .error .riskDecompositionInvariant := by
    rw [fill_ok_unfold hM]
    simp only [hw]
    rw [if_neg hbad]
  exact ⟨hfill, fun tr' hcon => by rw [hfill] at hcon; cases hcon⟩

/-- C9, amended (the original claim is refuted by
`fill_negative_usd_total_completes` below): `fill_asset_risk_contributions`
never raises a `DivisionByZeroError` — the numpy array division
`balances / usd_total` raises no exception for a zero or negative total,
so no rejection happens before computing; failures, when any, surface
later and under other names. -/
theorem fill_never_divisionByZero (tr : Treasury) (m : List (String × Rdf)) (s e : ℕ) :
    fill_asset_risk_contributions tr m s e ≠ .error .divisionByZero := by
  intro h
  cases hM : make_returns_matrix tr m s e with
  | error err =>
    unfold fill_asset_risk_contributions at h
    simp only [hM] at h
    cases h
    rcases make_returns_matrix_error_cases hM with h' | h' <;> cases h'
  | ok M =>
    rw [fill_ok_unfold hM] at h
    cases hw : weightsOf tr M.colNames with
    | error err =>
      simp only [hw] at h
      cases h
      exact (by decide : Err.divisionByZero ≠ Err.missingAsset) (weightsOf_error hw)
    | ok w =>
      simp only [hw] at h
      by_cases hc : F.isclose (F.sum (componentContribs w M.columns)) (sigmaP w M.columns)
      · rw [if_pos hc] at h
        exact assignAll_never_divisionByZero _ _ h
      · rw [if_neg hc] at h
        cases h

/-! ## Concrete evaluations on the example data -/

lemma make_exampleM_trPos : make_returns_matrix trPos exampleMap 0 2 = .ok exampleM := rfl

lemma make_exampleM_trZero : make_returns_matrix trZero exampleMap 0 2 = .ok exampleM := rfl

lemma make_exampleM_trNeg : make_returns_matrix trNeg exampleMap 0 2 = .ok exampleM := rfl

lemma make_exampleMB_trPos : make_returns_matrix trPos exampleMapB 0 2 = .ok exampleMB := rfl

lemma exampleM_columns : exampleM.columns = [[F.fin 1, F.fin 2, F.fin 3]] := rfl

lemma covF_example :
    covF [F.fin 1, F.fin 2, F.fin 3] [F.fin 1, F.fin 2, F.fin 3] = F.fin 1 := by
  norm_num [covF, F.sum, F.add, F.sub, F.neg, F.mul, F.div, F.isNanB]

lemma wDotCov_pinf_example :
    wDotCov [F.pinf] [[F.fin 1, F.fin 2, F.fin 3]] = [F.pinf] := by
  have hr : List.range ([[F.fin 1, F.fin 2, F.fin 3]] : List (List F)).length = [0] := rfl
  rw [wDotCov, hr]
  simp only [covMatrix, List.map_cons, List.map_nil, covF_example]
  norm_num [dotF, F.sum, F.mul, F.add, List.getD]

lemma sigmaP_pinf_example :
    sigmaP [F.pinf] [[F.fin 1, F.fin 2, F.fin 3]] = F.pinf := by
  rw [sigmaP, wDotCov_pinf_example]
  norm_num [dotF, F.sum, F.mul, F.add, F.sqrtF]

lemma comps_pinf_example :
    componentContribs [F.pinf] [[F.fin 1, F.fin 2, F.fin 3]] = [F.nan] := by
  rw [componentContribs, wDotCov_pinf_example, sigmaP_pinf_example]
  norm_num [F.div, F.mul]

lemma weightsOf_trZero : weightsOf trZero ["ETH"] = .ok [F.pinf] := by
  have h : F.div (F.fin 1) (F.fin 0) = F.pinf := by norm_num [F.div]
  calc weightsOf trZero ["ETH"] = .ok [F.div (F.fin 1) (F.fin 0)] := rfl
    _ = .ok [F.pinf] := by rw [h]

lemma wDotCov_one_example :
    wDotCov [F.fin 1] [[F.fin 1, F.fin 2, F.fin 3]] = [F.fin 1] := by
  have hr : List.range ([[F.fin 1, F.fin 2, F.fin 3]] : List (List F)).length = [0] := rfl
  rw [wDotCov, hr]
  simp only [covMatrix, List.map_cons, List.map_nil, covF_example]
  norm_num [dotF, F.sum, F.mul, F.add, List.getD]

lemma sigmaP_one_example :
    sigmaP [F.fin 1] [[F.fin 1, F.fin 2, F.fin 3]] = F.fin 1 := by
  rw [sigmaP, wDotCov_one_example]
  norm_num [dotF, F.sum, F.mul, F.add, F.sqrtF, Real.sqrt_one]

lemma comps_one_example :
    componentContribs [F.fin 1] [[F.fin 1, F.fin 2, F.fin 3]] = [F.fin 1] := by
  rw [componentContribs, wDotCov_one_example, sigmaP_one_example]
  norm_num [F.div, F.mul]

lemma weightsOf_trNeg : weightsOf trNeg ["ETH"] = .ok [F.fin 1] := by
  have h : F.div (F.fin (-1)) (F.fin (-1)) = F.fin 1 := by norm_num [F.div]
  calc weightsOf trNeg ["ETH"] = .ok [F.div (F.fin (-1)) (F.fin (-1))] := rfl
    _ = .ok [F.fin 1] := by rw [h]

lemma weightsOf_trPos : weightsOf trPos ["ETH"] = .ok [F.fin 1] := by
  have h : F.div (F.fin 1) (F.fin 1) = F.fin 1 := by norm_num [F.div]
  calc weightsOf trPos ["ETH"] = .ok [F.div (F.fin 1) (F.fin 1)] := rfl
    _ = .ok [F.fin 1] := by rw [h]

lemma fill_ok_of_weights_one {tr : Treasury}
    (hM : make_returns_matrix tr exampleMap 0 2 = .ok exampleM)
    (hw : weightsOf tr exampleM.colNames = .ok [F.fin 1]) :
    fill_asset_risk_contributions tr exampleMap 0 2 = assignAll tr [("ETH", F.fin 1)] := by
  rw [fill_ok_unfold hM]
  simp only [hw, exampleM_columns, comps_one_example, sigmaP_one_example]
  have hgate : F.isclose (F.sum [F.fin 1]) (F.fin 1) := by
    norm_num [F.sum, F.add, F.isclose, F.rtol]
  rw [if_pos hgate]
  have hdiv : F.div (F.fin 1) (F.fin 1) = F.fin 1 := by norm_num [F.div]
  simp only [List.map_cons, List.map_nil, hdiv]
  rfl

/-- C9, counterexample: the claim says a zero-or-negative `usd_total` is
rejected with a `DivisionByZeroError` before computing; instead, with a
negative total (here `-1`, balance `-1`, weight `1`) the decomposition
runs to completion, assigns a risk contribution, and returns the
treasury. -/
theorem fill_negative_usd_total_completes :
    trNeg.usd_total = F.fin (-1) ∧
      fill_asset_risk_contributions trNeg exampleMap 0 2
        = .ok ⟨[⟨"ETH", F.fin (-1), some (F.fin 1)⟩], F.fin (-1)⟩ := by
  refine ⟨rfl, ?_⟩
  rw [fill_ok_of_weights_one make_exampleM_trNeg weightsOf_trNeg]
  rfl

/-- Witness for C2: a treasury whose externally supplied `usd_total` is
zero yields an infinite weight, a NaN component sum, a failed
reconciliation, and the invariant abort. -/
theorem fill_invariant_gate_witness :
    fill_asset_risk_contributions trZero exampleMap 0 2
        = .error .riskDecompositionInvariant ∧
      ∀ tr', fill_asset_risk_contributions trZero exampleMap 0 2 ≠ .ok tr' := by
  have hbad : ¬ F.isclose (F.sum (componentContribs [F.pinf] exampleM.columns))
      (sigmaP [F.pinf] exampleM.columns) := by
    rw [exampleM_columns, comps_pinf_example, sigmaP_pinf_example]
    simp [F.sum, F.add, F.isclose]
  exact fill_invariant_gate trZero exampleMap 0 2 exampleM [F.pinf]
    make_exampleM_trZero weightsOf_trZero hbad

/-- Witness for C8: the mapping has a `"B"` column the treasury lacks, so
the weight build fails with the missing-asset error. -/
theorem fill_missing_asset_witness :
    fill_asset_risk_contributions trPos exampleMapB 0 2 = .error .missingAsset :=
  fill_missing_asset trPos exampleMapB 0 2 exampleMB make_exampleMB_trPos
    ⟨"B", by decide, rfl⟩

/-! ## Read-back of the assignment loop -/

lemma mem_zipWith {α β γ : Type} {f : α → β → γ} :
    ∀ {l1 : List α} {l2 : List β} {x : γ}, x ∈ List.zipWith f l1 l2 →
      ∃ a b, a ∈ l1 ∧ b ∈ l2 ∧ x = f a b := by
  intro l1
  induction l1 with
  | nil => intro l2 x hx; cases hx
  | cons a l ih =>
    intro l2 x hx
    cases l2 with
    | nil => cases hx
    | cons b l2' =>
      rw [List.zipWith_cons_cons] at hx
      rcases List.mem_cons.mp hx with rfl | hx'
      · exact ⟨a, b, List.mem_cons_self _ _, List.mem_cons_self _ _, rfl⟩
      · obtain ⟨a', b', ha, hb, hfab⟩ := ih hx'
        exact ⟨a', b', List.mem_cons_of_mem _ ha, List.mem_cons_of_mem _ hb, hfab⟩

lemma find?_setRisk_ne {assets : List Asset} {sym sym' : String} (hne : sym' ≠ sym) (p : F) :
    (setRisk assets sym p).find? (fun a => a.token_symbol == sym')
      = assets.find? (fun a => a.token_symbol == sym') := by
  induction assets with
  | nil => rfl
  | cons a rest ih =>
    rw [setRisk]
    by_cases h : (a.token_symbol == sym) = true
    · rw [if_pos h]
      have ha : a.token_symbol = sym := by simpa using h
      have h1 : (a.token_symbol == sym') = false := by
        simp [ha]
        exact fun hc => hne hc.symm
      simp [List.find?, h1]
    · rw [if_neg h]
      by_cases hp : (a.token_symbol == sym') = true
      · simp [List.find?, hp]
      · have h1 : (a.token_symbol == sym') = false := by simpa using hp
        simp [List.find?, h1, ih]

lemma find?_setRisk_self {assets : List Asset} {sym : String} {a : Asset}
    (h : assets.find? (fun x => x.token_symbol == sym) = some a) (p : F) :
    (setRisk assets sym p).find? (fun x => x.token_symbol == sym)
      = some { a with risk_contribution := some p } := by
  induction assets with
  | nil => cases h
  | cons x rest ih =>
    rw [setRisk]
    by_cases hp : (x.token_symbol == sym) = true
    · simp only [List.find?, hp] at h
      cases h
      rw [if_pos hp]
      simp [List.find?, hp]
    · have h1 : (x.token_symbol == sym) = false := by simpa using hp
      simp only [List.find?, h1] at h
      rw [if_neg hp]
      simp [List.find?, h1, ih h]

lemma riskContribution_setRisk_ne {tr : Treasury} {sym sym' : String} {u : F}
    (hne : sym' ≠ sym) (p : F) :
    riskContribution ⟨setRisk tr.assets sym p, u⟩ sym' = riskContribution tr sym' := by
  unfold riskContribution Treasury.get_asset
  rw [find?_setRisk_ne hne p]

lemma assignAll_not_mem {pairs : List (String × F)} {tr tr' : Treasury} {sym : String}
    (h : assignAll tr pairs = .ok tr') (hnm : sym ∉ pairs.map Prod.fst) :
    riskContribution tr' sym = riskContribution tr sym := by
  induction pairs generalizing tr with
  | nil => cases h; rfl
  | cons q rest ih =>
    obtain ⟨qs, qp⟩ := q
    rw [assignAll] at h
    simp only [List.map_cons, List.mem_cons, not_or] at hnm
    cases hE : tr.get_asset qs with
    | none => rw [hE] at h; cases h
    | some a =>
      rw [hE] at h
      rw [ih h hnm.2]
      exact riskContribution_setRisk_ne hnm.1 qp

lemma assignAll_zip_reads {syms : List String} {ps : List F} {tr tr' : Treasury}
    (hnd : syms.Nodup) (hlen : ps.length = syms.length)
    (h : assignAll tr (syms.zip ps) = .ok tr') :
    syms.map (riskContribution tr') = ps := by
  induction syms generalizing ps tr with
  | nil =>
    cases ps with
    | nil => rfl
    | cons p pr => cases hlen
  | cons s rest ih =>
    cases ps with
    | nil => cases hlen
    | cons p pr =>
      rw [List.zip_cons_cons, assignAll] at h
      cases hE : tr.get_asset s with
      | none => rw [hE] at h; cases h
      | some a =>
        simp only [hE] at h
        have hnd1 : s ∉ rest := (List.nodup_cons.mp hnd).1
        have hnd2 : rest.Nodup := (List.nodup_cons.mp hnd).2
        have hlen' : pr.length = rest.length := by
          simpa using hlen
        rw [List.map_cons]
        have hhead : riskContribution tr' s = p := by
          have hnm : s ∉ (rest.zip pr).map Prod.fst := by
            rw [List.map_fst_zip rest pr (le_of_eq hlen'.symm)]
            exact hnd1
          rw [assignAll_not_mem h hnm]
          unfold riskContribution Treasury.get_asset
          rw [find?_setRisk_self hE p]
          rfl
        rw [hhead, ih hnd2 hlen' h]

/-! ## The percentage-sum analysis -/

lemma componentContribs_length (w : List F) (cols : List (List F)) :
    (componentContribs w cols).length = min cols.length w.length := by
  simp [componentContribs, wDotCov]

lemma columns_length (M : RMatrix) : M.columns.length = M.colNames.length := by
  simp [RMatrix.columns]

/-- C1, amended (the claim as frozen is refuted by
`fill_empty_columns_counterexample` below, which exhibits a normal return
with a zero-column matrix): whenever `fill_asset_risk_contributions`
returns normally on a treasury with positive `usd_total` and a
returns matrix with at least one column (mapping keys unique, as for a
Python dict), the `risk_contribution` percentages read back from the
returned treasury, one per matrix column, sum to `1.0` within the
relative tolerance `1e-4`. -/
theorem fill_percentages_sum_to_one (tr : Treasury) (m : List (String × Rdf)) (s e : ℕ)
    (u : ℝ) (hu : tr.usd_total = F.fin u) (hupos : 0 < u)
    (hnd : (m.map Prod.fst).Nodup)
    (M : RMatrix) (hM : make_returns_matrix tr m s e = .ok M)
    (hne : M.colNames ≠ [])
    (tr' : Treasury) (hok : fill_asset_risk_contributions tr m s e = .ok tr') :
    F.isclose (F.sum (M.colNames.map (riskContribution tr'))) (F.fin 1) := by
  rw [fill_ok_unfold hM] at hok
  cases hw : weightsOf tr M.colNames with
  | error err => rw [hw] at hok; cases hok
  | ok w =>
    simp only [hw] at hok
    by_cases hgate : F.isclose (F.sum (componentContribs w M.columns)) (sigmaP w M.columns)
    case neg => rw [if_neg hgate] at hok; cases hok
    rw [if_pos hgate] at hok
    have hlw : w.length = M.colNames.length := weightsOf_ok_length hw
    have hlcomps : (componentContribs w M.columns).length = M.colNames.length := by
      rw [componentContribs_length, columns_length, hlw, min_self]
    have hndM : M.colNames.Nodup := make_returns_matrix_ok_nodup hM hnd
    have hassign : M.colNames.map (riskContribution tr')
        = (componentContribs w M.columns).map
            (fun c => F.div c (sigmaP w M.columns)) := by
      refine assignAll_zip_reads hndM ?_ hok
      simp [hlcomps]
    rw [hassign]
    cases hσ : sigmaP w M.columns with
    | nan =>
      rw [hσ] at hgate
      exact absurd hgate (F.isclose_nan_right _)
    | ninf => exact absurd hσ (F.sqrtF_ne_ninf _)
    | pinf =>
      rw [hσ] at hgate
      have hsum := F.isclose_pinf_right hgate
      have hmem := F.sum_pinf_mem hsum
      have hcomps : componentContribs w M.columns
          = List.zipWith F.mul ((wDotCov w M.columns).map (fun x => F.div x F.pinf)) w := by
        rw [componentContribs, hσ]
      rw [hcomps] at hmem
      obtain ⟨a, b, ha, hb, hab⟩ := mem_zipWith hmem
      obtain ⟨y, hy, rfl⟩ := List.mem_map.mp ha
      rcases F.div_pinf_cases y with hdiv | hdiv <;> rw [hdiv] at hab
      · exact absurd hab.symm (F.mul_fin_zero_ne_pinf b)
      · rw [F.mul_nan_left] at hab
        cases hab
    | fin sv =>
      rw [hσ] at hgate
      obtain ⟨cs, hcs, hdisj⟩ := F.isclose_fin_right hgate
      by_cases hsv : sv = 0
      · subst hsv
        have hnonempty : componentContribs w M.columns ≠ [] := by
          intro hnil
          rw [hnil] at hlcomps
          exact hne (List.length_eq_zero.mp hlcomps.symm)
        obtain ⟨x, hx⟩ := List.exists_mem_of_ne_nil _ hnonempty
        obtain ⟨r, hr⟩ := F.sum_fin_mem hcs hx
        have hcomps : componentContribs w M.columns
            = List.zipWith F.mul ((wDotCov w M.columns).map (fun v => F.div v (F.fin 0))) w := by
          rw [componentContribs, hσ]
        rw [hcomps] at hx
        obtain ⟨a, b, ha, hb, hab⟩ := mem_zipWith hx
        obtain ⟨y, hy, rfl⟩ := List.mem_map.mp ha
        rw [hab] at hr
        obtain ⟨pp, qq, hp, hq, -⟩ := F.mul_eq_fin hr
        exact absurd hp (F.div_by_fin_zero_ne_fin y pp)
      · rw [F.sum_map_div hsv hcs]
        have := F.isclose_div_one hsv hdisj
        simpa [F.isclose] using this

/-- C1, counterexample to the claim as frozen: the treasury `trA` has
`usd_total = 1 > 0` and holds only `"A"`, while the mapping carries only
an ETH history; the ETH carve-out empties the matrix, every vector is
empty, `σ_p = sqrt 0 = 0`, the gate `isclose(0, 0)` passes, and the call
returns normally having assigned nothing — the percentages over the
matrix columns sum to `0`, not `1`. -/
theorem fill_empty_columns_counterexample :
    trA.usd_total = F.fin 1 ∧
      make_returns_matrix trA exampleMap 0 2 = .ok exampleMEmpty ∧
      fill_asset_risk_contributions trA exampleMap 0 2 = .ok trA ∧
      ¬ F.isclose (F.sum (exampleMEmpty.colNames.map (riskContribution trA))) (F.fin 1) := by
  have hM : make_returns_matrix trA exampleMap 0 2 = .ok exampleMEmpty := rfl
  refine ⟨rfl, hM, ?_, ?_⟩
  · rw [fill_ok_unfold hM]
    have hw : weightsOf trA exampleMEmpty.colNames = .ok [] := rfl
    simp only [hw]
    have hσ : sigmaP [] exampleMEmpty.columns = F.fin 0 := by
      have hc : exampleMEmpty.columns = [] := rfl
      rw [hc, sigmaP]
      norm_num [wDotCov, dotF, F.sum, F.sqrtF, Real.sqrt_zero]
    have hcomps : componentContribs [] exampleMEmpty.columns = [] := rfl
    have hgate : F.isclose (F.sum (componentContribs [] exampleMEmpty.columns))
        (sigmaP [] exampleMEmpty.columns) := by
      rw [hcomps, hσ]
      norm_num [F.sum, F.isclose, F.rtol]
    rw [if_pos hgate]
    rfl
  · norm_num [exampleMEmpty, F.sum, F.isclose, F.rtol, riskContribution]

/-- Witness for the amended C1 on a one-column run: the single ETH
column receives percentage `1`, and the read-back sum is close to `1`. -/
theorem fill_percentages_sum_to_one_witness :
    F.isclose (F.sum (exampleM.colNames.map (riskContribution
      ⟨[⟨"ETH", F.fin 1, some (F.fin 1)⟩], F.fin 1⟩))) (F.fin 1) := by
  have hok : fill_asset_risk_contributions trPos exampleMap 0 2
      = .ok ⟨[⟨"ETH", F.fin 1, some (F.fin 1)⟩], F.fin 1⟩ := by
    rw [fill_ok_of_weights_one make_exampleM_trPos weightsOf_trPos]
    rfl
  exact fill_percentages_sum_to_one trPos exampleMap 0 2 1 rfl (by norm_num)
    (by decide) exampleM make_exampleM_trPos (by decide) _ hok

/-! ## The balance-spread backtester contract -/

namespace Spread

lemma find?_filter_ne {bs : SBalances} {sym sym' : String} (h : sym' ≠ sym) :
    (bs.filter (fun p => !(p.1 == sym))).find? (fun p => p.1 == sym')
      = bs.find? (fun p => p.1 == sym') := by
  induction bs with
  | nil => rfl
  | cons q rest ih =>
    by_cases hq : (q.1 == sym) = true
    · have hq' : q.1 = sym := by simpa using hq
      have hne : (q.1 == sym') = false := by
        simp [hq']
        exact fun hc => h hc.symm
      rw [List.filter_cons_of_neg (by simp [hq])]
      rw [ih]
      simp [List.find?, hne]
    · rw [List.filter_cons_of_pos (by simp; simpa using hq)]
      by_cases hp : (q.1 == sym') = true
      · simp [List.find?, hp]
      · have hp' : (q.1 == sym') = false := by simpa using hp
        simp [List.find?, hp', ih]

lemma lookupSeries_setSeries_self (bs : SBalances) (sym : String) (s : Series) :
    lookupSeries (setSeries bs sym s) sym = s := by
  simp [lookupSeries, setSeries, List.find?]

lemma lookupSeries_setSeries_ne (bs : SBalances) {sym sym' : String} (s : Series)
    (h : sym' ≠ sym) :
    lookupSeries (setSeries bs sym s) sym' = lookupSeries bs sym' := by
  have hne : (sym == sym') = false := by
    simp
    exact fun hc => h hc.symm
  simp only [lookupSeries, setSeries, List.find?, hne]
  rw [find?_filter_ne h]

lemma mem_windowDates {start endd x : ℕ} :
    x ∈ windowDates start endd ↔ start ≤ x ∧ x < endd + 1 := by
  simp only [windowDates, List.mem_map, List.mem_range]
  constructor
  · rintro ⟨i, hi, rfl⟩
    omega
  · rintro ⟨h1, h2⟩
    exact ⟨x - start, by omega, by omega⟩

lemma nodup_windowDates (start endd : ℕ) : (windowDates start endd).Nodup := by
  refine (List.nodup_range _).map ?_
  intro a b hab
  have hab' : a + start = b + start := hab
  omega

lemma valueAt_eq_none_of_not_keys {s : Series} {d : ℕ} (h : ∀ r ∈ s, r.1 ≠ d) :
    valueAt s d = none := by
  rw [valueAt, List.find?_eq_none.mpr]
  · rfl
  · intro r hr
    simp [h r hr]

lemma valueAt_map_window {dates : List ℕ} {d : ℕ} (hd : d ∈ dates) (h : ℕ → ℚ) :
    valueAt (dates.map (fun x => (x, h x))) d = some (h d) := by
  induction dates with
  | nil => cases hd
  | cons x xs ih =>
    rw [List.map_cons]
    by_cases hx : x = d
    · subst hx
      simp [valueAt, List.find?]
    · have hmem : d ∈ xs := by
        rcases List.mem_cons.mp hd with rfl | hmem
        · exact absurd rfl hx
        · exact hmem
      have hne : (x == d) = false := by simp [hx]
      simp only [valueAt, List.find?, hne]
      exact ih hmem

lemma valueAt_filterMap_window {dates : List ℕ} (hnd : dates.Nodup) {d : ℕ}
    (hd : d ∈ dates) (f : ℕ → Option ℚ) (g : ℚ → ℚ) :
    valueAt (dates.filterMap (fun x => (f x).map (fun v => (x, g v)))) d
      = (f d).map g := by
  induction dates with
  | nil => cases hd
  | cons x xs ih =>
    rw [List.filterMap_cons]
    have hnd2 : xs.Nodup := (List.nodup_cons.mp hnd).2
    by_cases hx : x = d
    · subst hx
      have hnotin : x ∉ xs := (List.nodup_cons.mp hnd).1
      cases hfx : f x with
      | none =>
        simp only [Option.map]
        rw [valueAt_eq_none_of_not_keys]
        intro r hr
        obtain ⟨y, hy, hspec⟩ := List.mem_filterMap.mp hr
        cases hfy : f y with
        | none => rw [hfy] at hspec; cases hspec
        | some vy =>
          rw [hfy] at hspec
          simp only [Option.map_some, Option.some.injEq] at hspec
          have hy1 : r.1 = y := by rw [← hspec]
          intro hcon
          rw [hcon] at hy1
          rw [← hy1] at hy
          exact hnotin hy
      | some vx =>
        simp [valueAt, List.find?]
    · have hmem : d ∈ xs := by
        rcases List.mem_cons.mp hd with rfl | hmem
        · exact absurd rfl hx
        · exact hmem
      cases hfx : f x with
      | none => exact ih hnd2 hmem
      | some vx =>
        have hne : (x == d) = false := by simp [hx]
        simp only [Option.map_some, valueAt, List.find?, hne]
        exact ih hnd2 hmem

lemma noop_check_false {s : Series} {start : ℕ} {v : ℚ}
    (h : valueAt s start = some v) :
    s.all (fun r => decide (start < r.1)) = false := by
  rw [valueAt] at h
  cases hf : s.find? (fun r => r.1 == start) with
  | none => rw [hf] at h; cases h
  | some r =>
    have hmem := List.mem_of_find?_eq_some hf
    have hpred := List.find?_some hf
    have hr1 : r.1 = start := by simpa using hpred
    rw [List.all_eq_false]
    exact ⟨r, hmem, by simp [hr1]⟩

lemma minDate_eq_none {l : List ℕ} (h : minDate l = none) : l = [] := by
  cases l with
  | nil => rfl
  | cons a rest =>
    rw [minDate] at h
    cases hm : minDate rest <;> rw [hm] at h <;> cases h

lemma minDate_spec {l : List ℕ} {d : ℕ} (h : minDate l = some d) :
    d ∈ l ∧ ∀ x ∈ l, d ≤ x := by
  induction l generalizing d with
  | nil => cases h
  | cons a rest ih =>
    rw [minDate] at h
    cases hm : minDate rest with
    | none =>
      rw [hm] at h
      cases h
      refine ⟨List.mem_cons_self _ _, ?_⟩
      intro x hx
      rcases List.mem_cons.mp hx with rfl | hx'
      · exact le_refl _
      · rw [minDate_eq_none hm] at hx'
        cases hx'
    | some d' =>
      rw [hm] at h
      cases h
      obtain ⟨hmem, hle⟩ := ih hm
      constructor
      · rcases le_total a d' with had | had
        · simp [min_eq_left had]
        · rw [min_eq_right had]
          exact List.mem_cons_of_mem _ hmem
      · intro x hx
        rcases List.mem_cons.mp hx with rfl | hx'
        · exact min_le_left _ _
        · exact le_trans (min_le_right _ _) (hle x hx')

lemma firstRecordedFrom_spec {t : Series} {start dref : ℕ}
    (h : firstRecordedFrom t start = some dref) :
    dref ∈ t.map Prod.fst ∧ start ≤ dref := by
  rw [firstRecordedFrom] at h
  obtain ⟨hmem, -⟩ := minDate_spec h
  rw [List.mem_filter] at hmem
  exact ⟨hmem.1, by simpa using hmem.2⟩

lemma valueAt_isSome_of_mem_keys {t : Series} {d : ℕ} (h : d ∈ t.map Prod.fst) :
    ∃ v, valueAt t d = some v := by
  obtain ⟨r, hr, rfl⟩ := List.mem_map.mp h
  rw [valueAt]
  cases hf : t.find? (fun q => q.1 == r.1) with
  | none =>
    rw [List.find?_eq_none] at hf
    exact absurd (by simp) (hf r hr)
  | some q => exact ⟨q.2, rfl⟩

lemma carriedAt_start (t : Series) (amount : ℚ) (start : ℕ) :
    carriedAt t amount start start = amount := by
  rw [carriedAt]
  cases hdref : firstRecordedFrom t start with
  | none => rfl
  | some dref =>
    obtain ⟨hmem, hge⟩ := firstRecordedFrom_spec hdref
    by_cases hlt : start < dref
    · simp [hlt]
    · have heq : dref = start := by omega
      subst heq
      obtain ⟨vref, hvref⟩ := valueAt_isSome_of_mem_keys hmem
      simp only [hlt, if_false, hvref]
      by_cases hz : vref = 0
      · simp [hz]
      · simp only [hz, if_false]
        rw [mul_div_assoc, div_self hz, mul_one]

lemma update_swap_source {bs : SBalances} {source target : String} {pct : ℚ}
    {start endd : ℕ}
    (hall : (lookupSeries bs source).all (fun r => decide (start < r.1)) = false) :
    lookupSeries (update_balances_with_spread bs source target pct start endd) source
      = newSource (lookupSeries bs source) pct start endd := by
  rw [update_balances_with_spread]
  rw [if_neg (by simp [hall])]
  exact lookupSeries_setSeries_self _ _ _

lemma update_swap_target {bs : SBalances} {source target : String} {pct : ℚ}
    {start endd : ℕ} (hst : source ≠ target)
    (hall : (lookupSeries bs source).all (fun r => decide (start < r.1)) = false) :
    lookupSeries (update_balances_with_spread bs source target pct start endd) target
      = newTarget (lookupSeries bs target)
          (swapAmount (lookupSeries bs source) pct start) start endd := by
  rw [update_balances_with_spread]
  rw [if_neg (by simp [hall])]
  rw [lookupSeries_setSeries_ne _ _ (fun hc => hst hc.symm)]
  exact lookupSeries_setSeries_self _ _ _

/-- C3 (confirmed, against the spec-modelled backtester): the swap
conserves balance at the start date — the new source and target balances
at `start_date` sum to the original source balance there plus any
pre-existing target balance. -/
theorem spread_conservation_at_start
    (bs : SBalances) (source target : String) (pct : ℚ) (start endd : ℕ) (v : ℚ)
    (hst : source ≠ target) (h0 : 0 ≤ pct) (h100 : pct ≤ 100) (hwin : start ≤ endd)
    (hdef : valueAt (lookupSeries bs source) start = some v) :
    (valueAt (lookupSeries
        (update_balances_with_spread bs source target pct start endd) source) start).getD 0
      + (valueAt (lookupSeries
          (update_balances_with_spread bs source target pct start endd) target) start).getD 0
      = v + (valueAt (lookupSeries bs target) start).getD 0 := by
  have hall := noop_check_false hdef
  have hmemw : start ∈ windowDates start endd := mem_windowDates.mpr ⟨le_refl _, by omega⟩
  rw [update_swap_source hall, update_swap_target hst hall]
  rw [newSource, valueAt_filterMap_window (nodup_windowDates _ _) hmemw, hdef]
  rw [newTarget, valueAt_map_window hmemw]
  rw [carriedAt_start, swapAmount, hdef]
  show v * (1 - pct / 100) + (v * pct / 100 + (valueAt (lookupSeries bs target) start).getD 0)
      = v + (valueAt (lookupSeries bs target) start).getD 0
  ring

/-- C3 witness: the fixture of the 20 % GVT→USDC test — balances
`GVT = [123, 246]` on days 1–2, swap 20 % at day 1. -/
theorem spread_conservation_at_start_witness :
    (valueAt (lookupSeries (update_balances_with_spread
        [("GVT", [((1 : ℕ), (123 : ℚ)), (2, 246)])] "GVT" "USDC" 20 1 2) "GVT") 1).getD 0
      + (valueAt (lookupSeries (update_balances_with_spread
          [("GVT", [((1 : ℕ), (123 : ℚ)), (2, 246)])] "GVT" "USDC" 20 1 2) "USDC") 1).getD 0
      = 123 + (valueAt (lookupSeries
          [("GVT", [((1 : ℕ), (123 : ℚ)), (2, 246)])] "USDC") 1).getD 0 :=
  spread_conservation_at_start _ "GVT" "USDC" 20 1 2 123
    (by decide) (by norm_num) (by norm_num) (by norm_num) rfl

/-- C4, amended (the claim as frozen fails at `pct = 100`, see
`spread_pct100_counterexample`): for every `pct` in `[0, 100)`, the
returned source series preserves the original source's period ratio over
every adjacent pair of window dates. -/
theorem spread_source_rate_preserved
    (bs : SBalances) (source target : String) (pct : ℚ) (start endd d : ℕ) (v : ℚ)
    (hst : source ≠ target) (h0 : 0 ≤ pct) (h1 : pct < 100)
    (hdef : valueAt (lookupSeries bs source) start = some v)
    (hd1 : start ≤ d) (hd2 : d + 1 ≤ endd) :
    (valueAt (lookupSeries
        (update_balances_with_spread bs source target pct start endd) source) (d + 1)).getD 0
      / (valueAt (lookupSeries
          (update_balances_with_spread bs source target pct start endd) source) d).getD 0
      = (valueAt (lookupSeries bs source) (d + 1)).getD 0
        / (valueAt (lookupSeries bs source) d).getD 0 := by
  have hall := noop_check_false hdef
  have hdw : d ∈ windowDates start endd := mem_windowDates.mpr ⟨hd1, by omega⟩
  have hdw1 : d + 1 ∈ windowDates start endd := mem_windowDates.mpr ⟨by omega, by omega⟩
  rw [update_swap_source hall]
  rw [newSource, valueAt_filterMap_window (nodup_windowDates _ _) hdw1,
    valueAt_filterMap_window (nodup_windowDates _ _) hdw]
  have hcpos : (1 - pct / 100 : ℚ) ≠ 0 := by
    have hlt : pct / 100 < 1 := (div_lt_one (by norm_num : (0 : ℚ) < 100)).mpr h1
    intro hc
    rw [sub_eq_zero] at hc
    exact absurd hc.symm (ne_of_lt hlt)
  cases ha : valueAt (lookupSeries bs source) d with
  | none => simp
  | some a =>
    cases hb : valueAt (lookupSeries bs source) (d + 1) with
    | none => simp
    | some b =>
      show b * (1 - pct / 100) / (a * (1 - pct / 100)) = b / a
      exact mul_div_mul_right _ _ hcpos

/-- C4 witness for the amended statement: the 20 % swap preserves the
original period ratio `246 / 123 = 2` on days 1–2. -/
theorem spread_source_rate_preserved_witness :
    (valueAt (lookupSeries (update_balances_with_spread
        [("GVT", [((1 : ℕ), (123 : ℚ)), (2, 246)])] "GVT" "USDC" 20 1 2) "GVT") 2).getD 0
      / (valueAt (lookupSeries (update_balances_with_spread
          [("GVT", [((1 : ℕ), (123 : ℚ)), (2, 246)])] "GVT" "USDC" 20 1 2) "GVT") 1).getD 0
      = (valueAt (lookupSeries
            [("GVT", [((1 : ℕ), (123 : ℚ)), (2, 246)])] "GVT") 2).getD 0
        / (valueAt (lookupSeries
            [("GVT", [((1 : ℕ), (123 : ℚ)), (2, 246)])] "GVT") 1).getD 0 :=
  spread_source_rate_preserved _ "GVT" "USDC" 20 1 2 1 123
    (by decide) (by norm_num) (by norm_num) rfl (by norm_num) (by norm_num)

/-- C4, counterexample to the claim as frozen: at `pct = 100` the new
source series is identically zero, its period ratio degenerates to
`0 / 0`, and the original ratio `246 / 123 = 2` is not reproduced, even
though the source has a defined value at the start date. -/
theorem spread_pct100_counterexample :
    valueAt (lookupSeries [("GVT", [((1 : ℕ), (123 : ℚ)), (2, 246)])] "GVT") 1
        = some 123 ∧
      ¬ ((valueAt (lookupSeries (update_balances_with_spread
            [("GVT", [((1 : ℕ), (123 : ℚ)), (2, 246)])] "GVT" "USDC" 100 1 2) "GVT") 2).getD 0
          / (valueAt (lookupSeries (update_balances_with_spread
              [("GVT", [((1 : ℕ), (123 : ℚ)), (2, 246)])] "GVT" "USDC" 100 1 2) "GVT") 1).getD 0
        = (valueAt (lookupSeries
              [("GVT", [((1 : ℕ), (123 : ℚ)), (2, 246)])] "GVT") 2).getD 0
          / (valueAt (lookupSeries
              [("GVT", [((1 : ℕ), (123 : ℚ)), (2, 246)])] "GVT") 1).getD 0) := by
  constructor
  · rfl
  · have hall : (lookupSeries [("GVT", [((1 : ℕ), (123 : ℚ)), (2, 246)])] "GVT").all
        (fun r => decide ((1 : ℕ) < r.1)) = false := rfl
    rw [update_swap_source hall]
    have h2w : (2 : ℕ) ∈ windowDates 1 2 := by decide
    have h1w : (1 : ℕ) ∈ windowDates 1 2 := by decide
    rw [newSource, valueAt_filterMap_window (nodup_windowDates _ _) h2w,
      valueAt_filterMap_window (nodup_windowDates _ _) h1w]
    rw [show valueAt (lookupSeries [("GVT", [((1 : ℕ), (123 : ℚ)), (2, 246)])] "GVT") 2
        = some 246 from rfl]
    rw [show valueAt (lookupSeries [("GVT", [((1 : ℕ), (123 : ℚ)), (2, 246)])] "GVT") 1
        = some 123 from rfl]
    show ¬ (246 * (1 - 100 / 100) / (123 * (1 - 100 / 100)) = 246 / 123 : Prop)
    norm_num

end Spread

/-- Witness for C10 at a concrete input: a treasury holding only `"A"`
and a mapping with the single key `"A"`. -/
theorem make_returns_matrix_eth_drop_fails_witness :
    (Treasury.mk [⟨"A", F.fin 1, none⟩] (F.fin 1)).get_asset "ETH" = none ∧
    "ETH" ∉ ([("A", [((0 : ℕ), F.fin 0)])].map Prod.fst) ∧
    ∃ err, make_returns_matrix (Treasury.mk [⟨"A", F.fin 1, none⟩] (F.fin 1))
      [("A", [((0 : ℕ), F.fin 0)])] 0 0 = .error err :=
  ⟨rfl, by decide, make_returns_matrix_eth_drop_fails _ _ _ _ rfl (by decide)⟩

end Whip
